import Mathlib

/-!
# Verification of the `TaskHandler` task registry

Shallow embedding of `TaskHandler<T>` (the generic task handler built on a
linked list of `{id, task}` records and a `Signal<T, string>` broadcast
channel), together with proofs of the specified properties.

Modelling choices:
* The phosphor `LinkedList` of records is a `List TaskRecord`; `addLast`
  appends at the tail, `first`/`firstNode` is the list head.
* `UUID.uuid4()` (the external unique-identifier source behind
  `_generateTaskID`) is modelled as a fresh-counter generator: each call
  returns the current value of `nextID` and bumps it.  Identifiers are `Nat`.
* Every emission on the `taskChanged` signal is recorded, in order, in a
  `List String` returned next to the new state.  The payload type is the
  same `String` type as task labels, as in `Signal<T, string>`.
* A thrown JavaScript exception is modelled as `Option.none`: `remove` on an
  empty list reads `node.next` off a null `firstNode`, which throws a
  `TypeError`, so that case returns `none`.
-/

set_option autoImplicit false

namespace TaskRegistry

/-- A pending-task record, `{ id: string; task: string }` in the source
(ids are modelled as `Nat`, see the module comment). -/
structure TaskRecord where
  id : Nat
  task : String
deriving DecidableEq, Repr

/-- The state of one `TaskHandler` instance: the ordered task list and the
state of the unique-identifier generator. -/
structure TaskHandler where
  taskList : List TaskRecord
  nextID : Nat
deriving DecidableEq, Repr

/-- A freshly constructed handler: empty task list, generator at 0. -/
def TaskHandler.initial : TaskHandler := ⟨[], 0⟩

/-- `add(task)`: generate a fresh id, append `{id, task}` at the tail, and
emit `task` when the list length is 1 after the append (i.e. the list was
empty before).  Returns the id, the new state and the emissions. -/
def TaskHandler.add (h : TaskHandler) (task : String) :
    Nat × TaskHandler × List String :=
  let id := h.nextID
  let newList := h.taskList ++ [⟨id, task⟩]
  (id, ⟨newList, h.nextID + 1⟩, if newList.length = 1 then [task] else [])

/-- The scan of `remove`: check the first node, else walk `node.next` until
the first record whose `id` matches, excise it, and keep everything else in
order.  With no match the list is returned unchanged (the walk falls off the
end without removing anything). -/
def removeFirstMatch (taskID : Nat) : List TaskRecord → List TaskRecord
  | [] => []
  | r :: rest =>
    if r.id = taskID then rest else r :: removeFirstMatch taskID rest

/-- The post-scan check of `remove`: emit `'empty'` when the list has
length 0, the label of the record at the head (`first.task`) otherwise. -/
def headBroadcast : List TaskRecord → List String
  | [] => ["empty"]
  | r :: _ => [r.task]

/-- `remove(taskID)`: on an empty list `firstNode` is null and the `else`
branch reads `node.next` off it, throwing a `TypeError` (modelled as
`none`).  On a non-empty list the scan excises the first match (if any),
then the post-scan check broadcasts on the resulting list. -/
def TaskHandler.remove (h : TaskHandler) (taskID : Nat) :
    Option (TaskHandler × List String) :=
  match h.taskList with
  | [] => none
  | _ :: _ =>
    let newList := removeFirstMatch taskID h.taskList
    some (⟨newList, h.nextID⟩, headBroadcast newList)

/-- `execute(name, callable)`: `add(name)`, run the callable, and remove the
task in a `finally` block; the callable's outcome (success value or thrown
failure, an `Except`) is handed back to the caller unchanged after the
removal ran.  The callable does not touch the registry. -/
def TaskHandler.execute {E R : Type} (h : TaskHandler) (name : String)
    (callable : Except E R) : Option (Except E R × TaskHandler × List String) :=
  let taskID := (h.add name).1
  let h1 := (h.add name).2.1
  let e1 := (h.add name).2.2
  match h1.remove taskID with
  | none => none
  | some (h2, e2) => some (callable, h2, e1 ++ e2)

/-- One externally driven registry call. -/
inductive Op where
  | addOp (task : String)
  | removeOp (taskID : Nat)
deriving DecidableEq, Repr

/-- Apply one call to a handler, recording its emissions. -/
def TaskHandler.step (h : TaskHandler) : Op → Option (TaskHandler × List String)
  | .addOp t => some ((h.add t).2.1, (h.add t).2.2)
  | .removeOp i => h.remove i

/-- Run a sequence of calls from a state; stops with `none` when a call
throws. -/
def TaskHandler.run (h : TaskHandler) : List Op → Option TaskHandler
  | [] => some h
  | op :: ops =>
    match h.step op with
    | none => none
    | some (h', _) => h'.run ops

/-- Run a sequence of `remove` calls, recording each call's post-state and
emissions. -/
def TaskHandler.removeAll (h : TaskHandler) :
    List Nat → Option (List (TaskHandler × List String))
  | [] => some []
  | i :: is =>
    match h.remove i with
    | none => none
    | some (h', e) =>
      match h'.removeAll is with
      | none => none
      | some tr => some ((h', e) :: tr)

/-- The registry invariant: outstanding ids are pairwise distinct and all
below the generator counter. -/
def TaskHandler.Inv (h : TaskHandler) : Prop :=
  (h.taskList.map TaskRecord.id).Nodup ∧ ∀ r ∈ h.taskList, r.id < h.nextID

/-! ## Lemmas about the scan -/

theorem removeFirstMatch_sublist (i : Nat) (l : List TaskRecord) :
    List.Sublist (removeFirstMatch i l) l := by
  induction l with
  | nil => simp [removeFirstMatch]
  | cons r rest ih =>
    by_cases hid : r.id = i
    · simp [removeFirstMatch, hid]
    · simpa [removeFirstMatch, hid] using ih.cons₂ r

theorem removeFirstMatch_of_not_mem (i : Nat) (l : List TaskRecord)
    (hi : i ∉ l.map TaskRecord.id) : removeFirstMatch i l = l := by
  induction l with
  | nil => rfl
  | cons r rest ih =>
    have hr : r.id ≠ i := by
      intro h
      exact hi (by simp [h])
    have hrest : i ∉ rest.map TaskRecord.id := by
      intro h
      exact hi (by simp [h])
    simp [removeFirstMatch, hr, ih hrest]

theorem map_id_removeFirstMatch (i : Nat) (l : List TaskRecord) :
    (removeFirstMatch i l).map TaskRecord.id = (l.map TaskRecord.id).erase i := by
  induction l with
  | nil => rfl
  | cons r rest ih =>
    by_cases hid : r.id = i
    · simp [removeFirstMatch, hid]
    · simp [removeFirstMatch, hid, List.erase_cons_tail, ih,
        (by simpa using hid : ¬(r.id == i) = true)]

theorem length_removeFirstMatch_of_mem (i : Nat) (l : List TaskRecord)
    (hi : i ∈ l.map TaskRecord.id) :
    (removeFirstMatch i l).length + 1 = l.length := by
  have hmap := map_id_removeFirstMatch i l
  have h1 : (removeFirstMatch i l).length = ((l.map TaskRecord.id).erase i).length := by
    rw [← hmap]
    simp
  have h2 : ((l.map TaskRecord.id).erase i).length = (l.map TaskRecord.id).length - 1 :=
    List.length_erase_of_mem hi
  have h3 : 0 < (l.map TaskRecord.id).length :=
    List.length_pos.2 (List.ne_nil_of_mem hi)
  simp only [List.length_map] at h1 h2 h3
  omega

theorem removeFirstMatch_eq_split (i : Nat) (l : List TaskRecord)
    (hi : i ∈ l.map TaskRecord.id) :
    ∃ pre r post, l = pre ++ r :: post ∧ r.id = i ∧
      (∀ r' ∈ pre, r'.id ≠ i) ∧ removeFirstMatch i l = pre ++ post := by
  induction l with
  | nil => simp at hi
  | cons r rest ih =>
    by_cases hid : r.id = i
    · exact ⟨[], r, rest, rfl, hid, by simp, by simp [removeFirstMatch, hid]⟩
    · have hi' : i ∈ rest.map TaskRecord.id := by
        have hmem := hi
        rw [List.map_cons, List.mem_cons] at hmem
        rcases hmem with h | h
        · exact absurd h.symm hid
        · exact h
      obtain ⟨pre, r', post, hsplit, hr', hpre, hrm⟩ := ih hi'
      refine ⟨r :: pre, r', post, by simp [hsplit], hr', ?_,
        by simp [removeFirstMatch, hid, hrm]⟩
      intro x hx
      rcases List.mem_cons.1 hx with h | h
      · exact h ▸ hid
      · exact hpre x h

theorem removeFirstMatch_append_fresh (i : Nat) (t : String)
    (l : List TaskRecord) (hfresh : ∀ r ∈ l, r.id ≠ i) :
    removeFirstMatch i (l ++ [⟨i, t⟩]) = l := by
  induction l with
  | nil => simp [removeFirstMatch]
  | cons r rest ih =>
    have hr : r.id ≠ i := hfresh r (by simp)
    have htail : removeFirstMatch i (rest ++ [⟨i, t⟩]) = rest :=
      ih (fun r' hr' => hfresh r' (List.mem_cons_of_mem r hr'))
    simp [removeFirstMatch, hr, htail]

/-! ## Characterisation of `remove` -/

theorem remove_of_ne_nil (h : TaskHandler) (taskID : Nat)
    (hne : h.taskList ≠ []) :
    h.remove taskID =
      some (⟨removeFirstMatch taskID h.taskList, h.nextID⟩,
        headBroadcast (removeFirstMatch taskID h.taskList)) := by
  obtain ⟨l, n⟩ := h
  cases l with
  | nil => simp at hne
  | cons r rest => rfl

theorem remove_eq_some_inv (h : TaskHandler) (taskID : Nat)
    (h' : TaskHandler) (e : List String)
    (hrm : h.remove taskID = some (h', e)) :
    h.taskList ≠ [] ∧ h' = ⟨removeFirstMatch taskID h.taskList, h.nextID⟩ ∧
      e = headBroadcast (removeFirstMatch taskID h.taskList) := by
  obtain ⟨l, n⟩ := h
  cases l with
  | nil => simp [TaskHandler.remove] at hrm
  | cons r rest =>
    simp only [TaskHandler.remove, Option.some.injEq, Prod.mk.injEq] at hrm
    exact ⟨by simp, hrm.1.symm, hrm.2.symm⟩

/-! ## Invariant preservation -/

theorem Inv_initial : TaskHandler.initial.Inv :=
  ⟨List.nodup_nil, by simp [TaskHandler.initial]⟩

theorem add_preserves_Inv (h : TaskHandler) (t : String) (hinv : h.Inv) :
    (h.add t).2.1.Inv := by
  obtain ⟨hnd, hlt⟩ := hinv
  constructor
  · have hnotmem : h.nextID ∉ h.taskList.map TaskRecord.id := by
      intro hmem
      obtain ⟨r, hr, hid⟩ := List.mem_map.1 hmem
      exact absurd (hid ▸ hlt r hr) (lt_irrefl _)
    have hperm :
        (h.taskList.map TaskRecord.id ++ [h.nextID]).Perm
          (h.nextID :: h.taskList.map TaskRecord.id) :=
      List.perm_append_singleton _ _
    simp only [TaskHandler.add, List.map_append, List.map_cons, List.map_nil]
    exact hperm.nodup_iff.2 (List.nodup_cons.2 ⟨hnotmem, hnd⟩)
  · intro r hr
    have hr' : r ∈ h.taskList ++ [⟨h.nextID, t⟩] := hr
    rw [List.mem_append] at hr'
    show r.id < h.nextID + 1
    rcases hr' with hmem | hmem
    · exact Nat.lt_succ_of_lt (hlt r hmem)
    · rw [List.mem_singleton] at hmem
      rw [hmem]
      exact Nat.lt_succ_self _

theorem remove_preserves_Inv (h h' : TaskHandler) (taskID : Nat)
    (e : List String) (hinv : h.Inv)
    (hrm : h.remove taskID = some (h', e)) : h'.Inv := by
  obtain ⟨hnd, hlt⟩ := hinv
  obtain ⟨-, hstate, -⟩ := remove_eq_some_inv h taskID h' e hrm
  subst hstate
  constructor
  · rw [map_id_removeFirstMatch]
    exact hnd.erase _
  · intro r hr
    exact hlt r ((removeFirstMatch_sublist taskID h.taskList).subset hr)

theorem step_preserves_Inv (h h' : TaskHandler) (op : Op) (e : List String)
    (hinv : h.Inv) (hstep : h.step op = some (h', e)) : h'.Inv := by
  cases op with
  | addOp t =>
    simp only [TaskHandler.step, Option.some.injEq, Prod.mk.injEq] at hstep
    exact hstep.1 ▸ add_preserves_Inv h t hinv
  | removeOp i => exact remove_preserves_Inv h h' i e hinv hstep

theorem run_preserves_Inv (ops : List Op) :
    ∀ h h' : TaskHandler, h.Inv → h.run ops = some h' → h'.Inv := by
  induction ops with
  | nil =>
    intro h h' hinv hrun
    simp only [TaskHandler.run, Option.some.injEq] at hrun
    exact hrun ▸ hinv
  | cons op ops ih =>
    intro h h' hinv hrun
    simp only [TaskHandler.run] at hrun
    cases hstep : h.step op with
    | none => rw [hstep] at hrun; cases hrun
    | some p =>
      obtain ⟨h1, e1⟩ := p
      rw [hstep] at hrun
      exact ih h1 h' (step_preserves_Inv h h1 op e1 hinv hstep) hrun

/-! ## Draining the registry -/

theorem removeAll_drain (ids : List Nat) :
    ∀ h : TaskHandler, (h.taskList.map TaskRecord.id).Nodup →
      ids.Perm (h.taskList.map TaskRecord.id) →
      ∃ tr, h.removeAll ids = some tr ∧ tr.length = ids.length ∧
        (∀ k (hk : k < tr.length),
          (tr.get ⟨k, hk⟩).1.taskList.length + (k + 1) = ids.length) ∧
        (∀ k (hk : k < tr.length),
          (tr.get ⟨k, hk⟩).2 = headBroadcast (tr.get ⟨k, hk⟩).1.taskList) := by
  induction ids with
  | nil =>
    intro h hnd hperm
    exact ⟨[], rfl, rfl, fun k hk => absurd hk (Nat.not_lt_zero k),
      fun k hk => absurd hk (Nat.not_lt_zero k)⟩
  | cons i is ih =>
    intro h hnd hperm
    have hmem : i ∈ h.taskList.map TaskRecord.id :=
      hperm.subset (List.mem_cons_self i is)
    have hne : h.taskList ≠ [] := by
      intro hnil
      rw [hnil] at hmem
      simp at hmem
    have hrm := remove_of_ne_nil h i hne
    have hmap' : (removeFirstMatch i h.taskList).map TaskRecord.id
        = (h.taskList.map TaskRecord.id).erase i :=
      map_id_removeFirstMatch i h.taskList
    have hnd' : ((removeFirstMatch i h.taskList).map TaskRecord.id).Nodup := by
      rw [hmap']
      exact hnd.erase i
    have hperm' : is.Perm ((removeFirstMatch i h.taskList).map TaskRecord.id) := by
      rw [hmap']
      exact (List.cons_perm_iff_perm_erase.1 hperm).2
    obtain ⟨tr, htr, hlen, hlens, hemits⟩ :=
      ih ⟨removeFirstMatch i h.taskList, h.nextID⟩ hnd' hperm'
    refine ⟨(⟨removeFirstMatch i h.taskList, h.nextID⟩,
      headBroadcast (removeFirstMatch i h.taskList)) :: tr, ?_, ?_, ?_, ?_⟩
    · simp only [TaskHandler.removeAll, hrm, htr]
    · simp [hlen]
    · intro k hk
      cases k with
      | zero =>
        have hlen0 : (removeFirstMatch i h.taskList).length = is.length := by
          have h1 : is.length
              = ((removeFirstMatch i h.taskList).map TaskRecord.id).length :=
            hperm'.length_eq
          simpa using h1.symm
        simpa using hlen0
      | succ k =>
        have hk' : k < tr.length := by
          simpa using Nat.lt_of_succ_lt_succ (by simpa using hk)
        have := hlens k hk'
        show (tr.get ⟨k, hk'⟩).1.taskList.length + (k + 1 + 1) = is.length + 1
        omega
    · intro k hk
      cases k with
      | zero => rfl
      | succ k =>
        have hk' : k < tr.length := by
          simpa using Nat.lt_of_succ_lt_succ (by simpa using hk)
        exact hemits k hk'

/-! ## Claim theorems -/

/-- **C1**: for every `remove(id)` with `id` present in the sequence, exactly
one notification is emitted: the empty sentinel when the sequence is empty
after the removal, and otherwise the label of the record now at the head —
even when the removed record was not the head (the statement quantifies over
arbitrary states, so in particular over removals of non-head records that
leave the head unchanged). -/
theorem remove_present_broadcasts (h : TaskHandler) (taskID : Nat)
    (hmem : taskID ∈ h.taskList.map TaskRecord.id) :
    ∃ h' e, h.remove taskID = some (h', e) ∧ e.length = 1 ∧
      (h'.taskList = [] → e = ["empty"]) ∧
      ∀ r rest, h'.taskList = r :: rest → e = [r.task] := by
  have hne : h.taskList ≠ [] := by
    intro hnil
    rw [hnil] at hmem
    simp at hmem
  refine ⟨⟨removeFirstMatch taskID h.taskList, h.nextID⟩,
    headBroadcast (removeFirstMatch taskID h.taskList),
    remove_of_ne_nil h taskID hne, ?_, ?_, ?_⟩
  · cases removeFirstMatch taskID h.taskList <;> rfl
  · intro hnil
    have hnil' : removeFirstMatch taskID h.taskList = [] := hnil
    rw [hnil']
    rfl
  · intro r rest hcons
    have hcons' : removeFirstMatch taskID h.taskList = r :: rest := hcons
    rw [hcons']
    rfl

/-- Witness for `remove_present_broadcasts`: removing the non-head record of
a two-element registry. -/
theorem remove_present_broadcasts_witness :
    ∃ h' e, (⟨[⟨0, "clone"⟩, ⟨1, "fetch"⟩], 2⟩ : TaskHandler).remove 1 =
        some (h', e) ∧ e.length = 1 ∧
      (h'.taskList = [] → e = ["empty"]) ∧
      ∀ r rest, h'.taskList = r :: rest → e = [r.task] :=
  remove_present_broadcasts ⟨[⟨0, "clone"⟩, ⟨1, "fetch"⟩], 2⟩ 1 (by decide)

/-- **C2**: `add(label)` returns the freshly generated id, appends the new
record at the tail, emits exactly the new label when the sequence was empty
immediately before the call, and emits nothing when it was non-empty. -/
theorem add_appends_and_broadcasts (h : TaskHandler) (t : String) :
    (h.add t).1 = h.nextID ∧
    (h.add t).2.1.taskList = h.taskList ++ [⟨h.nextID, t⟩] ∧
    (h.taskList = [] → (h.add t).2.2 = [t]) ∧
    (h.taskList ≠ [] → (h.add t).2.2 = []) := by
  refine ⟨rfl, rfl, ?_, ?_⟩
  · intro hnil
    show (if (h.taskList ++ [(⟨h.nextID, t⟩ : TaskRecord)]).length = 1
      then [t] else []) = [t]
    rw [hnil]
    rfl
  · intro hne
    have hlen : h.taskList.length ≠ 0 := by
      intro h0
      exact hne (List.length_eq_zero.1 h0)
    have hcond : ¬(h.taskList ++ [(⟨h.nextID, t⟩ : TaskRecord)]).length = 1 := by
      rw [List.length_append]
      simp only [List.length_singleton]
      omega
    show (if (h.taskList ++ [(⟨h.nextID, t⟩ : TaskRecord)]).length = 1
      then [t] else []) = []
    rw [if_neg hcond]

/-- Witness for `add_appends_and_broadcasts`: an `add` on the empty registry
and an `add` on the resulting one-element registry. -/
theorem add_appends_and_broadcasts_witness :
    (TaskHandler.initial.add "clone").2.2 = ["clone"] ∧
    ((⟨[⟨0, "clone"⟩], 1⟩ : TaskHandler).add "fetch").2.2 = [] :=
  ⟨(add_appends_and_broadcasts TaskHandler.initial "clone").2.2.1 rfl,
    (add_appends_and_broadcasts ⟨[⟨0, "clone"⟩], 1⟩ "fetch").2.2.2 (by simp)⟩

/-- **C3**: `execute(name, callable)` performs the `add`, then performs
exactly one `remove` with the id returned by that `add` (this is the sole
registry mutation after the `add`, on both the success and the failure path:
`callable` is universally quantified over `Except` outcomes), and hands the
callable's outcome back unchanged, after the removal's state change and
emissions. -/
theorem execute_removes_once_and_propagates {E R : Type} (h : TaskHandler)
    (name : String) (callable : Except E R) :
    ∃ h2 e2,
      (h.add name).2.1.remove (h.add name).1 = some (h2, e2) ∧
      h.execute name callable = some (callable, h2, (h.add name).2.2 ++ e2) := by
  have hne : (h.add name).2.1.taskList ≠ [] := by
    show h.taskList ++ [⟨h.nextID, name⟩] ≠ []
    simp
  refine ⟨_, _, remove_of_ne_nil _ _ hne, ?_⟩
  show (match (h.add name).2.1.remove (h.add name).1 with
    | none => none
    | some (h2, e2) => some (callable, h2, (h.add name).2.2 ++ e2)) =
    some (callable, _, (h.add name).2.2 ++ _)
  rw [remove_of_ne_nil _ _ hne]

/-- **C4** counterexample: `remove` called on a fresh (empty) registry has a
failure mode — `firstNode` is null and the walk reads `node.next` off it,
throwing a `TypeError` (`none` in this embedding), so the claim that
`remove(id)` never fails in any registry state is false at this input. -/
theorem remove_on_empty_throws : TaskHandler.initial.remove 0 = none := rfl

/-- **C4** amended: `add(label)` succeeds for every label (it is a total
function of the state), and `remove(id)` has no failure mode for any id
whenever the sequence is non-empty; only a `remove` on an empty registry
throws. -/
theorem remove_total_on_nonempty (h : TaskHandler) (taskID : Nat)
    (hne : h.taskList ≠ []) :
    ∃ h' e, h.remove taskID = some (h', e) :=
  ⟨_, _, remove_of_ne_nil h taskID hne⟩

/-- Witness for `remove_total_on_nonempty`: an id absent from a one-element
registry is still processed without failure. -/
theorem remove_total_on_nonempty_witness :
    ∃ h' e, (⟨[⟨0, "clone"⟩], 1⟩ : TaskHandler).remove 7 = some (h', e) :=
  remove_total_on_nonempty ⟨[⟨0, "clone"⟩], 1⟩ 7 (by simp)

/-- **C5**: for every finite sequence of calls starting from a fresh
registry, the identifiers present in the sequence are pairwise distinct.
Every intermediate instant of a longer run is the final state of running the
corresponding prefix of calls, which this statement covers since `ops` is
universally quantified. -/
theorem run_ids_nodup (ops : List Op) (h : TaskHandler)
    (hrun : TaskHandler.initial.run ops = some h) :
    (h.taskList.map TaskRecord.id).Nodup :=
  (run_preserves_Inv ops TaskHandler.initial h Inv_initial hrun).1

/-- Witness for `run_ids_nodup`: two adds followed by a remove. -/
theorem run_ids_nodup_witness :
    ((⟨[⟨1, "fetch"⟩], 2⟩ : TaskHandler).taskList.map TaskRecord.id).Nodup :=
  run_ids_nodup [Op.addOp "clone", Op.addOp "fetch", Op.removeOp 0]
    ⟨[⟨1, "fetch"⟩], 2⟩ rfl

/-- **C6**: for every state and every id present in the sequence, `remove`
excises exactly the first record (scanning from the head) whose identifier
equals the id, and the remaining records keep their relative order: the
sequence splits as `pre ++ r :: post` with no match in `pre`, and the
post-state sequence is exactly `pre ++ post`. -/
theorem remove_excises_first_match (h : TaskHandler) (taskID : Nat)
    (hmem : taskID ∈ h.taskList.map TaskRecord.id) :
    ∃ pre r post e, h.taskList = pre ++ r :: post ∧ r.id = taskID ∧
      (∀ r' ∈ pre, r'.id ≠ taskID) ∧
      h.remove taskID = some (⟨pre ++ post, h.nextID⟩, e) := by
  obtain ⟨pre, r, post, hsplit, hid, hpre, hscan⟩ :=
    removeFirstMatch_eq_split taskID h.taskList hmem
  have hne : h.taskList ≠ [] := by
    intro hnil
    rw [hnil] at hmem
    simp at hmem
  refine ⟨pre, r, post, headBroadcast (removeFirstMatch taskID h.taskList),
    hsplit, hid, hpre, ?_⟩
  rw [remove_of_ne_nil h taskID hne, hscan]

/-- Witness for `remove_excises_first_match`: removing the middle record of
a three-element registry. -/
theorem remove_excises_first_match_witness :
    ∃ pre r post e,
      (⟨[⟨0, "a"⟩, ⟨1, "b"⟩, ⟨2, "c"⟩], 3⟩ : TaskHandler).taskList =
        pre ++ r :: post ∧ r.id = 1 ∧
      (∀ r' ∈ pre, r'.id ≠ 1) ∧
      (⟨[⟨0, "a"⟩, ⟨1, "b"⟩, ⟨2, "c"⟩], 3⟩ : TaskHandler).remove 1 =
        some (⟨pre ++ post, 3⟩, e) :=
  remove_excises_first_match ⟨[⟨0, "a"⟩, ⟨1, "b"⟩, ⟨2, "c"⟩], 3⟩ 1 (by decide)

/-- **C7**: draining a registry with pairwise-distinct outstanding ids by a
sequence of `remove` calls that uses each outstanding id exactly once (the
call list is a permutation of the outstanding ids) takes the sentinel branch
(post-state sequence empty, the branch that emits `'empty'`) on precisely
the last call and on no other, and that last call's emission is the empty
sentinel.  The sentinel is identified by its emitting branch because its
string value can coincide with an ordinary label (see the C10 theorem). -/
theorem drain_sentinel_iff_last (h : TaskHandler) (ids : List Nat)
    (hnd : (h.taskList.map TaskRecord.id).Nodup)
    (hperm : ids.Perm (h.taskList.map TaskRecord.id)) :
    ∃ tr, h.removeAll ids = some tr ∧ tr.length = ids.length ∧
      (∀ k (hk : k < tr.length),
        ((tr.get ⟨k, hk⟩).1.taskList = [] ↔ k + 1 = ids.length)) ∧
      (∀ k (hk : k < tr.length),
        k + 1 = ids.length → (tr.get ⟨k, hk⟩).2 = ["empty"]) := by
  obtain ⟨tr, htr, hlen, hlens, hemits⟩ := removeAll_drain ids h hnd hperm
  have hempty : ∀ k (hk : k < tr.length),
      ((tr.get ⟨k, hk⟩).1.taskList = [] ↔ k + 1 = ids.length) := by
    intro k hk
    constructor
    · intro hnil
      have hl := hlens k hk
      rw [hnil] at hl
      simpa using hl
    · intro hlast
      have hl := hlens k hk
      rw [hlast] at hl
      exact List.length_eq_zero.1 (by omega)
  refine ⟨tr, htr, hlen, hempty, ?_⟩
  intro k hk hlast
  have hnil : (tr.get ⟨k, hk⟩).1.taskList = [] := (hempty k hk).2 hlast
  rw [hemits k hk, hnil]
  rfl

/-- Witness for `drain_sentinel_iff_last`: draining a two-element registry,
removing the non-head record first. -/
theorem drain_sentinel_iff_last_witness :
    ∃ tr, (⟨[⟨0, "clone"⟩, ⟨1, "fetch"⟩], 2⟩ : TaskHandler).removeAll [1, 0] =
        some tr ∧ tr.length = ([1, 0] : List Nat).length ∧
      (∀ k (hk : k < tr.length),
        ((tr.get ⟨k, hk⟩).1.taskList = [] ↔ k + 1 = ([1, 0] : List Nat).length)) ∧
      (∀ k (hk : k < tr.length),
        k + 1 = ([1, 0] : List Nat).length → (tr.get ⟨k, hk⟩).2 = ["empty"]) :=
  drain_sentinel_iff_last ⟨[⟨0, "clone"⟩, ⟨1, "fetch"⟩], 2⟩ [1, 0]
    (by decide) (by decide)

/-- **C8**: after `execute(name, callable)` settles — on the success path
and on the failure path alike — the registry's sequence is exactly what it
was before the call (same records, same order, hence same length), provided
the generator is fresh (no outstanding record already carries the id the
`add` will hand out, which the registry invariant guarantees on every
reachable state). -/
theorem execute_restores_registry {E R : Type} (h : TaskHandler)
    (name : String) (callable : Except E R)
    (hfresh : ∀ r ∈ h.taskList, r.id ≠ h.nextID) :
    ∃ e, h.execute name callable =
      some (callable, ⟨h.taskList, h.nextID + 1⟩, e) := by
  have hne : (h.add name).2.1.taskList ≠ [] := by
    show h.taskList ++ [⟨h.nextID, name⟩] ≠ []
    simp
  have hscan : removeFirstMatch h.nextID (h.taskList ++ [⟨h.nextID, name⟩]) =
      h.taskList :=
    removeFirstMatch_append_fresh h.nextID name h.taskList hfresh
  have hrm : (h.add name).2.1.remove (h.add name).1 =
      some (⟨h.taskList, h.nextID + 1⟩, headBroadcast h.taskList) := by
    rw [remove_of_ne_nil _ _ hne]
    simp only [TaskHandler.add]
    rw [hscan]
  refine ⟨(h.add name).2.2 ++ headBroadcast h.taskList, ?_⟩
  show (match (h.add name).2.1.remove (h.add name).1 with
    | none => none
    | some (h2, e2) => some (callable, h2, (h.add name).2.2 ++ e2)) = _
  rw [hrm]

/-- Witness for `execute_restores_registry`: a failing operation executed on
a one-element registry; the pre-call record survives. -/
theorem execute_restores_registry_witness :
    ∃ e, (⟨[⟨0, "clone"⟩], 1⟩ : TaskHandler).execute "fetch"
        (Except.error "boom" : Except String Nat) =
      some (Except.error "boom", ⟨[⟨0, "clone"⟩], 2⟩, e) :=
  execute_restores_registry (⟨[⟨0, "clone"⟩], 1⟩ : TaskHandler) "fetch"
    (Except.error "boom") (by decide)

/-- **C9**: `remove` with an id absent from a non-empty sequence removes
nothing and leaves the sequence (and the generator) unchanged, yet still
emits exactly one notification carrying the current head record's label —
there is no silent no-op branch. -/
theorem remove_absent_rebroadcasts_head (h : TaskHandler) (taskID : Nat)
    (r : TaskRecord) (rest : List TaskRecord)
    (hlist : h.taskList = r :: rest)
    (habs : taskID ∉ h.taskList.map TaskRecord.id) :
    h.remove taskID = some (⟨h.taskList, h.nextID⟩, [r.task]) := by
  have hne : h.taskList ≠ [] := by
    rw [hlist]
    simp
  rw [remove_of_ne_nil h taskID hne,
    removeFirstMatch_of_not_mem taskID h.taskList habs, hlist]
  rfl

/-- Witness for `remove_absent_rebroadcasts_head`: an unmatched id against a
two-element registry re-announces the unchanged head label. -/
theorem remove_absent_rebroadcasts_head_witness :
    (⟨[⟨0, "clone"⟩, ⟨1, "fetch"⟩], 2⟩ : TaskHandler).remove 9 =
      some (⟨[⟨0, "clone"⟩, ⟨1, "fetch"⟩], 2⟩, ["clone"]) :=
  remove_absent_rebroadcasts_head ⟨[⟨0, "clone"⟩, ⟨1, "fetch"⟩], 2⟩ 9
    ⟨0, "clone"⟩ [⟨1, "fetch"⟩] rfl (by decide)

/-- **C10**: the empty sentinel is the literal string `"empty"` carried on
the same `String`-payload channel as task labels, so for a registry whose
head record is labeled `"empty"`, the notification of a `remove` that
leaves the registry non-empty (first conjunct: the head-label broadcast)
equals the notification of the `remove` that empties it (second conjunct:
the sentinel branch) — both are `["empty"]`, indistinguishable to
subscribers. -/
theorem sentinel_collides_with_label :
    (⟨[⟨0, "empty"⟩, ⟨1, "fetch"⟩], 2⟩ : TaskHandler).remove 1 =
      some (⟨[⟨0, "empty"⟩], 2⟩, ["empty"]) ∧
    (⟨[⟨0, "empty"⟩], 2⟩ : TaskHandler).remove 0 =
      some (⟨[], 2⟩, ["empty"]) :=
  ⟨rfl, rfl⟩

end TaskRegistry
